import Mathlib

/-!
Verification of the diffusion scheduling and sampling engine of `src/model.py`
(residual/noise diffusion model).  Tensors are modelled elementwise: a tensor
becomes a single scalar (all tensor operations in the verified core are
elementwise, with per-timestep coefficients broadcast over the batch), the
float64/float32 arithmetic of the source is modelled exactly over `ℚ` where the
source computes rational values and over `ℝ` where square roots appear
(`betas_cumsum`, the reduced-step sampler).  Schedule buffers become `List ℚ`
values indexed with default `0`, mirroring `gather`-based `extract`.
-/

set_option maxHeartbeats 1000000

/-- `torch.clip(x, 0, 1)` on a scalar element. -/
def clip01 (x : ℚ) : ℚ := min (max x 0) 1

/-- `torch.Tensor.cumsum(dim=0)`: entry `t` is the sum of the first `t+1` entries. -/
def cumsum (l : List ℚ) : List ℚ :=
  (List.range l.length).map (fun t => (l.take (t + 1)).sum)

/-- Index into a schedule buffer (the `extract` helper gathers at index `t`). -/
def idx (l : List ℚ) (t : ℕ) : ℚ := l.getD t 0

/-- `torch.Tensor.int()` truncates toward zero. -/
def truncInt (q : ℚ) : ℤ := if q < 0 then -(Int.floor (-q)) else Int.floor q

/-- `gen_coefficients` of `src/model.py` (lines 594-610) before the final
`* sum_scale`: the raw coefficient sequence for each schedule string, with the
unknown-string fallback returning the uniform sequence. -/
def gen_coefficients_raw (timesteps : ℕ) (schedule : String) : List ℚ :=
  if schedule = "increased" then
    (List.range timesteps).map
      (fun (i : ℕ) => ((i : ℚ) + 1) / ((1 / 2) * timesteps * (timesteps + 1)))
  else if schedule = "decreased" then
    (((List.range timesteps).map (fun (i : ℕ) => (i : ℚ) + 1)).reverse).map
      (fun (x : ℚ) => x / ((1 / 2) * timesteps * (timesteps + 1)))
  else if schedule = "average" then
    List.replicate timesteps (1 / (timesteps : ℚ))
  else
    List.replicate timesteps (1 / (timesteps : ℚ))

/-- The construction-time check of `gen_coefficients` (line 608 of
`src/model.py`): `alphas.sum() - 1 < 1e-10`.  The check passes exactly when
this proposition holds. -/
def sum_assert_passes (alphas : List ℚ) : Prop := alphas.sum - 1 < 1 / 10 ^ 10

instance (alphas : List ℚ) : Decidable (sum_assert_passes alphas) := by
  unfold sum_assert_passes
  infer_instance

/-- `gen_coefficients(timesteps, schedule, sum_scale)`: the raw sequence scaled. -/
def gen_coefficients (timesteps : ℕ) (schedule : String) (sum_scale : ℚ) : List ℚ :=
  (gen_coefficients_raw timesteps schedule).map (fun a => a * sum_scale)

/-- `self.sum_scale` as fixed by `Diffusion.__init__` (lines 643-647): a falsy
(`None` or `0`) argument falls back to `0.01` in conditional mode and `1.0`
otherwise. -/
def effective_sum_scale (condition : Bool) (sum_scale : Option ℚ) : ℚ :=
  if condition then
    match sum_scale with
    | some s => if s = 0 then 1 / 100 else s
    | none => 1 / 100
  else
    match sum_scale with
    | some s => if s = 0 then 1 else s
    | none => 1

/-- `ddim_sampling_eta` as fixed by `Diffusion.__init__`: forced to `0` in
conditional mode (line 645). -/
def effective_eta (condition : Bool) (eta : ℝ) : ℝ := if condition then 0 else eta

/-- `alphas = gen_coefficients(timesteps, schedule="decreased")` (line 649). -/
def alphas_list (T : ℕ) : List ℚ := gen_coefficients T "decreased" 1

/-- `alphas_cumsum = alphas.cumsum(dim=0).clip(0, 1)` (line 650). -/
def alphas_cumsum_list (T : ℕ) : List ℚ := (cumsum (alphas_list T)).map clip01

/-- `alphas_cumsum_prev = F.pad(alphas_cumsum[:-1], (1, 0), value=1.)` (line 651). -/
def alphas_cumsum_prev_list (T : ℕ) : List ℚ := 1 :: (alphas_cumsum_list T).dropLast

/-- `betas2 = gen_coefficients(timesteps, schedule="increased", sum_scale)` (lines 652-653). -/
def betas2_list (T : ℕ) (ss : ℚ) : List ℚ := gen_coefficients T "increased" ss

/-- `betas2_cumsum = betas2.cumsum(dim=0).clip(0, 1)` (line 654). -/
def betas2_cumsum_list (T : ℕ) (ss : ℚ) : List ℚ := (cumsum (betas2_list T ss)).map clip01

/-- `betas2_cumsum_prev = F.pad(betas2_cumsum[:-1], (1, 0), value=1.)` (line 656). -/
def betas2_cumsum_prev_list (T : ℕ) (ss : ℚ) : List ℚ := 1 :: (betas2_cumsum_list T ss).dropLast

/-- `posterior_variance = betas2*betas2_cumsum_prev/betas2_cumsum` with
`posterior_variance[0] = 0` (lines 657-658). -/
def posterior_variance_list (T : ℕ) (ss : ℚ) : List ℚ :=
  ((List.range T).map (fun t =>
    idx (betas2_list T ss) t * idx (betas2_cumsum_prev_list T ss) t /
      idx (betas2_cumsum_list T ss) t)).set 0 0

/-- `posterior_mean_coef1 = betas2_cumsum_prev/betas2_cumsum` with the
post-registration assignment `posterior_mean_coef1[0] = 0` (lines 682-683, 691). -/
def posterior_mean_coef1_list (T : ℕ) (ss : ℚ) : List ℚ :=
  ((List.range T).map (fun t =>
    idx (betas2_cumsum_prev_list T ss) t / idx (betas2_cumsum_list T ss) t)).set 0 0

/-- `posterior_mean_coef2 = (betas2*alphas_cumsum_prev-betas2_cumsum_prev*alphas)/betas2_cumsum`
with `posterior_mean_coef2[0] = 0` (lines 684-685, 692). -/
def posterior_mean_coef2_list (T : ℕ) (ss : ℚ) : List ℚ :=
  ((List.range T).map (fun t =>
    (idx (betas2_list T ss) t * idx (alphas_cumsum_prev_list T) t -
      idx (betas2_cumsum_prev_list T ss) t * idx (alphas_list T) t) /
      idx (betas2_cumsum_list T ss) t)).set 0 0

/-- `posterior_mean_coef3 = betas2/betas2_cumsum` with `posterior_mean_coef3[0] = 1`
(lines 686, 693). -/
def posterior_mean_coef3_list (T : ℕ) (ss : ℚ) : List ℚ :=
  ((List.range T).map (fun t =>
    idx (betas2_list T ss) t / idx (betas2_cumsum_list T ss) t)).set 0 1

/-- `one_minus_alphas_cumsum = 1-alphas_cumsum` with the post-registration
assignment `one_minus_alphas_cumsum[-1] = 1e-6` (lines 677, 694). -/
def one_minus_alphas_cumsum_list (T : ℕ) : List ℚ :=
  ((alphas_cumsum_list T).map (fun a => 1 - a)).set (T - 1) (1 / 10 ^ 6)

/-- `self.alphas_cumsum[t]` as a real scalar. -/
def alphas_cumsum_at (T : ℕ) (t : ℕ) : ℝ := ((idx (alphas_cumsum_list T) t : ℚ) : ℝ)

/-- `self.betas2_cumsum[t]` as a real scalar. -/
def betas2_cumsum_at (T : ℕ) (ss : ℚ) (t : ℕ) : ℝ := ((idx (betas2_cumsum_list T ss) t : ℚ) : ℝ)

/-- `betas_cumsum = torch.sqrt(betas2_cumsum)` (line 655), indexed at `t`. -/
noncomputable def betas_cumsum_at (T : ℕ) (ss : ℚ) (t : ℕ) : ℝ :=
  Real.sqrt (betas2_cumsum_at T ss t)

/-- `Diffusion.q_sample` (lines 920-926):
`x_start + alphas_cumsum[t]*x_res + betas_cumsum[t]*noise`. -/
noncomputable def q_sample (T : ℕ) (ss : ℚ) (x_start x_res : ℝ) (t : ℕ) (noise : ℝ) : ℝ :=
  x_start + alphas_cumsum_at T t * x_res + betas_cumsum_at T ss t * noise

/-- `Diffusion.predict_start_from_res_noise` (lines 708-712):
`x_t - alphas_cumsum[t]*x_res - betas_cumsum[t]*noise`. -/
noncomputable def predict_start_from_res_noise (T : ℕ) (ss : ℚ) (x_t : ℝ) (t : ℕ)
    (x_res noise : ℝ) : ℝ :=
  x_t - alphas_cumsum_at T t * x_res - betas_cumsum_at T ss t * noise

/-- The posterior mean computed by `Diffusion.q_posterior` (lines 718-723). -/
def q_posterior_mean (T : ℕ) (ss : ℚ) (pred_res x_start x_t : ℝ) (t : ℕ) : ℝ :=
  ((idx (posterior_mean_coef1_list T ss) t : ℚ) : ℝ) * x_t +
  ((idx (posterior_mean_coef2_list T ss) t : ℚ) : ℝ) * pred_res +
  ((idx (posterior_mean_coef3_list T ss) t : ℚ) : ℝ) * x_start

/-- The posterior variance returned by `Diffusion.q_posterior` (line 724). -/
def q_posterior_variance (T : ℕ) (ss : ℚ) (t : ℕ) : ℚ := idx (posterior_variance_list T ss) t

/-- C1: for every `x_start`, `x_res`, `noise` and timestep `t < num_timesteps`,
`predict_start_from_res_noise (q_sample x_start x_res t noise) t x_res noise`
recovers `x_start` exactly. -/
theorem q_sample_predict_start_round_trip (T : ℕ) (ss : ℚ) (x_start x_res noise : ℝ)
    (t : ℕ) (ht : t < T) :
    predict_start_from_res_noise T ss (q_sample T ss x_start x_res t noise) t x_res noise
      = x_start := by
  unfold predict_start_from_res_noise q_sample
  ring

theorem q_sample_predict_start_round_trip_witness :
    (2 : ℕ) < 5 ∧
      predict_start_from_res_noise 5 1 (q_sample 5 1 3 7 2 11) 2 7 11 = 3 :=
  ⟨by decide, q_sample_predict_start_round_trip 5 1 3 7 11 2 (by decide)⟩

/-! ### Basic facts about buffer indexing and lengths -/

lemma idx_eq_getElem (l : List ℚ) (t : ℕ) (h : t < l.length) : idx l t = l[t] :=
  List.getD_eq_getElem l 0 h

lemma idx_set_self (l : List ℚ) (i : ℕ) (v : ℚ) (h : i < l.length) :
    idx (l.set i v) i = v := by
  unfold idx
  rw [List.getD_eq_getElem _ _ (by simpa using h)]
  simp

lemma idx_set_ne (l : List ℚ) (i j : ℕ) (v : ℚ) (h : i ≠ j) :
    idx (l.set i v) j = idx l j := by
  simp [idx, List.getD, List.getElem?_set_ne h]

lemma idx_range_map (f : ℕ → ℚ) (n t : ℕ) (h : t < n) :
    idx ((List.range n).map f) t = f t := by
  simp [idx, List.getD, List.getElem?_map, List.getElem?_range h]

lemma idx_map_of_lt (f : ℚ → ℚ) (l : List ℚ) (t : ℕ) (h : t < l.length) :
    idx (l.map f) t = f (idx l t) := by
  rw [idx_eq_getElem _ _ (by simpa using h), idx_eq_getElem _ _ h]
  simp

lemma length_cumsum (l : List ℚ) : (cumsum l).length = l.length := by
  simp [cumsum]

lemma idx_cumsum (l : List ℚ) (t : ℕ) (h : t < l.length) :
    idx (cumsum l) t = (l.take (t + 1)).sum := by
  unfold cumsum
  exact idx_range_map _ _ _ h

lemma length_gen_raw (T : ℕ) (s : String) : (gen_coefficients_raw T s).length = T := by
  unfold gen_coefficients_raw
  split_ifs
  · rw [List.length_map, List.length_range]
  · rw [List.length_map, List.length_reverse, List.length_map, List.length_range]
  · rw [List.length_replicate]
  · rw [List.length_replicate]

lemma length_gen (T : ℕ) (s : String) (ss : ℚ) : (gen_coefficients T s ss).length = T := by
  simp [gen_coefficients, length_gen_raw]

lemma length_alphas_cumsum (T : ℕ) : (alphas_cumsum_list T).length = T := by
  simp [alphas_cumsum_list, alphas_list, length_cumsum, length_gen]

lemma length_betas2_cumsum (T : ℕ) (ss : ℚ) : (betas2_cumsum_list T ss).length = T := by
  simp [betas2_cumsum_list, betas2_list, length_cumsum, length_gen]

/-! ### C2: the forced boundary at step 0 -/

lemma posterior_mean_coef1_zero (T : ℕ) (ss : ℚ) (hT : 1 ≤ T) :
    idx (posterior_mean_coef1_list T ss) 0 = 0 := by
  unfold posterior_mean_coef1_list
  exact idx_set_self _ _ _ (by simpa using hT)

lemma posterior_mean_coef2_zero (T : ℕ) (ss : ℚ) (hT : 1 ≤ T) :
    idx (posterior_mean_coef2_list T ss) 0 = 0 := by
  unfold posterior_mean_coef2_list
  exact idx_set_self _ _ _ (by simpa using hT)

lemma posterior_mean_coef3_zero (T : ℕ) (ss : ℚ) (hT : 1 ≤ T) :
    idx (posterior_mean_coef3_list T ss) 0 = 1 := by
  unfold posterior_mean_coef3_list
  exact idx_set_self _ _ _ (by simpa using hT)

lemma posterior_variance_zero (T : ℕ) (ss : ℚ) (hT : 1 ≤ T) :
    idx (posterior_variance_list T ss) 0 = 0 := by
  unfold posterior_variance_list
  exact idx_set_self _ _ _ (by simpa using hT)

/-- C2: after construction `posterior_mean_coef1[0] = 0`, `coef2[0] = 0`,
`coef3[0] = 1`, `posterior_variance[0] = 0`, so for every `x_t`, `pred_res`,
`x_start` the posterior mean of `q_posterior` at `t = 0` is exactly `x_start`
and the posterior variance at `t = 0` is zero. -/
theorem posterior_boundary_step_zero (T : ℕ) (ss : ℚ) (hT : 1 ≤ T) :
    idx (posterior_mean_coef1_list T ss) 0 = 0 ∧
    idx (posterior_mean_coef2_list T ss) 0 = 0 ∧
    idx (posterior_mean_coef3_list T ss) 0 = 1 ∧
    idx (posterior_variance_list T ss) 0 = 0 ∧
    (∀ x_t pred_res x_start : ℝ,
      q_posterior_mean T ss pred_res x_start x_t 0 = x_start) ∧
    q_posterior_variance T ss 0 = 0 := by
  refine ⟨posterior_mean_coef1_zero T ss hT, posterior_mean_coef2_zero T ss hT,
    posterior_mean_coef3_zero T ss hT, posterior_variance_zero T ss hT, ?_,
    posterior_variance_zero T ss hT⟩
  intro x_t pred_res x_start
  unfold q_posterior_mean
  rw [posterior_mean_coef1_zero T ss hT, posterior_mean_coef2_zero T ss hT,
    posterior_mean_coef3_zero T ss hT]
  push_cast
  ring

theorem posterior_boundary_step_zero_witness :
    (1 ≤ 3) ∧ q_posterior_mean 3 (1/100) 5 7 11 0 = 7 :=
  ⟨by decide, (posterior_boundary_step_zero 3 (1/100) (by decide)).2.2.2.2.1 11 5 7⟩

/-! ### C3: schedule cumulative-sum invariants -/

lemma idx_betas2 (T : ℕ) (ss : ℚ) (i : ℕ) (h : i < T) :
    idx (betas2_list T ss) i = (((i : ℚ) + 1) / ((1 / 2) * T * (T + 1))) * ss := by
  unfold betas2_list gen_coefficients gen_coefficients_raw
  rw [if_pos rfl]
  rw [idx_map_of_lt _ _ _ (by rw [List.length_map, List.length_range]; exact h)]
  rw [idx_range_map _ _ _ h]

lemma length_betas2 (T : ℕ) (ss : ℚ) : (betas2_list T ss).length = T := by
  unfold betas2_list
  exact length_gen T _ ss

lemma betas2_mem_nonneg (T : ℕ) (ss : ℚ) (hss : 0 ≤ ss) :
    ∀ x ∈ betas2_list T ss, 0 ≤ x := by
  intro x hx
  unfold betas2_list gen_coefficients at hx
  rw [List.mem_map] at hx
  obtain ⟨a, ha, rfl⟩ := hx
  unfold gen_coefficients_raw at ha
  rw [if_pos rfl, List.mem_map] at ha
  obtain ⟨i, _, rfl⟩ := ha
  have h1 : (0 : ℚ) ≤ ((i : ℚ) + 1) / ((1 / 2) * T * (T + 1)) :=
    div_nonneg (by positivity) (by positivity)
  exact mul_nonneg h1 hss

lemma betas2_mem_neg (T : ℕ) (ss : ℚ) (hss : ss < 0) (hT : 1 ≤ T) :
    ∀ x ∈ betas2_list T ss, x < 0 := by
  intro x hx
  unfold betas2_list gen_coefficients at hx
  rw [List.mem_map] at hx
  obtain ⟨a, ha, rfl⟩ := hx
  unfold gen_coefficients_raw at ha
  rw [if_pos rfl, List.mem_map] at ha
  obtain ⟨i, _, rfl⟩ := ha
  have hTQ : (0 : ℚ) < T := by exact_mod_cast hT
  have hd : (0 : ℚ) < (1 / 2) * T * (T + 1) := by nlinarith
  have h1 : (0 : ℚ) < ((i : ℚ) + 1) / ((1 / 2) * T * (T + 1)) :=
    div_pos (by positivity) hd
  exact mul_neg_of_pos_of_neg h1 hss

lemma list_sum_neg : ∀ (l : List ℚ), (∀ x ∈ l, x < 0) → l ≠ [] → l.sum < 0 := by
  intro l
  induction l with
  | nil => intro _ h; exact absurd rfl h
  | cons a t ih =>
    intro h _
    have ha : a < 0 := h a (List.mem_cons_self a t)
    rcases t with _ | ⟨b, u⟩
    · simpa using ha
    · have ht : (b :: u).sum < 0 :=
        ih (fun x hx => h x (List.mem_cons_of_mem a hx)) (by simp)
      have : (a :: b :: u).sum = a + (b :: u).sum := by simp
      rw [this]
      linarith

lemma take_sum_mono (l : List ℚ) (h : ∀ x ∈ l, 0 ≤ x) {m n : ℕ} (hmn : m ≤ n) :
    (l.take m).sum ≤ (l.take n).sum := by
  have hsplit : l.take n = l.take m ++ (l.drop m).take (n - m) := by
    rw [← List.take_add]
    congr 1
    omega
  rw [hsplit, List.sum_append]
  have h2 : 0 ≤ ((l.drop m).take (n - m)).sum :=
    List.sum_nonneg fun x hx => h x (List.drop_subset m l (List.take_subset _ _ hx))
  linarith

lemma clip01_mono {x y : ℚ} (h : x ≤ y) : clip01 x ≤ clip01 y :=
  min_le_min (max_le_max h le_rfl) le_rfl

lemma clip01_of_nonpos {x : ℚ} (h : x ≤ 0) : clip01 x = 0 := by
  unfold clip01
  rw [max_eq_right h]
  norm_num

lemma clip01_of_mem {x : ℚ} (h0 : 0 ≤ x) (h1 : x ≤ 1) : clip01 x = x := by
  unfold clip01
  rw [max_eq_left h0, min_eq_left h1]

lemma idx_betas2_cumsum (T : ℕ) (ss : ℚ) (k : ℕ) (h : k < T) :
    idx (betas2_cumsum_list T ss) k = clip01 (((betas2_list T ss).take (k + 1)).sum) := by
  unfold betas2_cumsum_list
  rw [idx_map_of_lt _ _ _ (by rw [length_cumsum, length_betas2]; exact h)]
  rw [idx_cumsum _ _ (by rw [length_betas2]; exact h)]

lemma betas2_cumsum_nondecreasing (T : ℕ) (ss : ℚ) :
    ∀ i j, i ≤ j → j < T →
      idx (betas2_cumsum_list T ss) i ≤ idx (betas2_cumsum_list T ss) j := by
  intro i j hij hj
  have hi : i < T := lt_of_le_of_lt hij hj
  rw [idx_betas2_cumsum T ss i hi, idx_betas2_cumsum T ss j hj]
  rcases le_or_lt 0 ss with hss | hss
  · exact clip01_mono (take_sum_mono _ (betas2_mem_nonneg T ss hss) (by omega))
  · have hT : 1 ≤ T := by omega
    have hne : ∀ k : ℕ, (betas2_list T ss).take (k + 1) ≠ [] := by
      intro k
      have : 0 < ((betas2_list T ss).take (k + 1)).length := by
        rw [List.length_take, length_betas2]
        omega
      exact List.ne_nil_of_length_pos this
    have hmem : ∀ k : ℕ, ∀ x ∈ (betas2_list T ss).take (k + 1), x < 0 := by
      intro k x hx
      exact betas2_mem_neg T ss hss hT x (List.take_subset _ _ hx)
    rw [clip01_of_nonpos (le_of_lt (list_sum_neg _ (hmem i) (hne i))),
      clip01_of_nonpos (le_of_lt (list_sum_neg _ (hmem j) (hne j)))]

lemma idx_one_minus_of_lt (T t : ℕ) (h : t + 1 < T) :
    idx (one_minus_alphas_cumsum_list T) t = 1 - idx (alphas_cumsum_list T) t := by
  unfold one_minus_alphas_cumsum_list
  rw [idx_set_ne _ _ _ _ (by omega : T - 1 ≠ t)]
  exact idx_map_of_lt _ _ _ (by rw [length_alphas_cumsum]; omega)

lemma idx_one_minus_last (T : ℕ) (hT : 1 ≤ T) :
    idx (one_minus_alphas_cumsum_list T) (T - 1) = 1 / 10 ^ 6 := by
  unfold one_minus_alphas_cumsum_list
  exact idx_set_self _ _ _ (by rw [List.length_map, length_alphas_cumsum]; omega)

/-- C3: for every timestep `t` other than the last,
`alphas_cumsum[t] + one_minus_alphas_cumsum[t] = 1` exactly; at the last
timestep `one_minus_alphas_cumsum` is the substituted epsilon `1e-6`; and
`betas2_cumsum` is non-decreasing over `t`. -/
theorem schedule_cumsum_invariants (T : ℕ) (ss : ℚ) (hT : 1 ≤ T) :
    (∀ t, t + 1 < T →
      idx (alphas_cumsum_list T) t + idx (one_minus_alphas_cumsum_list T) t = 1) ∧
    idx (one_minus_alphas_cumsum_list T) (T - 1) = 1 / 10 ^ 6 ∧
    (∀ i j, i ≤ j → j < T →
      idx (betas2_cumsum_list T ss) i ≤ idx (betas2_cumsum_list T ss) j) := by
  refine ⟨?_, idx_one_minus_last T hT, betas2_cumsum_nondecreasing T ss⟩
  intro t ht
  rw [idx_one_minus_of_lt T t ht]
  ring

theorem schedule_cumsum_invariants_witness :
    (1 ≤ 3) ∧
      idx (alphas_cumsum_list 3) 0 + idx (one_minus_alphas_cumsum_list 3) 0 = 1 ∧
      idx (one_minus_alphas_cumsum_list 3) 2 = 1 / 10 ^ 6 ∧
      idx (betas2_cumsum_list 3 1) 1 ≤ idx (betas2_cumsum_list 3 1) 2 :=
  ⟨by decide, (schedule_cumsum_invariants 3 1 (by decide)).1 0 (by decide),
    (schedule_cumsum_invariants 3 1 (by decide)).2.1,
    (schedule_cumsum_invariants 3 1 (by decide)).2.2 1 2 (by decide) (by decide)⟩

/-! ### C7 and C9: the coefficient generator -/

lemma list_sum_map_div (l : List ℚ) (c : ℚ) :
    (l.map (fun (x : ℚ) => x / c)).sum = l.sum / c := by
  induction l with
  | nil => simp
  | cons a t ih => simp [ih, add_div]

lemma sum_range_map_add_one (T : ℕ) :
    ((List.range T).map (fun (i : ℕ) => (i : ℚ) + 1)).sum = T * (T + 1) / 2 := by
  induction T with
  | zero => simp
  | succ n ih =>
    rw [List.range_succ, List.map_append, List.sum_append, ih]
    push_cast
    simp
    ring

lemma gen_raw_sum (T : ℕ) (hT : 1 ≤ T) (s : String) : (gen_coefficients_raw T s).sum = 1 := by
  have hTQ : (0 : ℚ) < T := by exact_mod_cast hT
  have hd : (0 : ℚ) < (1 / 2) * T * (T + 1) := by nlinarith
  unfold gen_coefficients_raw
  split_ifs
  · have hcomp : (fun (i : ℕ) => ((i : ℚ) + 1) / ((1 / 2) * T * (T + 1))) =
        (fun (x : ℚ) => x / ((1 / 2) * T * (T + 1))) ∘ (fun (i : ℕ) => (i : ℚ) + 1) := rfl
    rw [hcomp, ← List.map_map, list_sum_map_div, sum_range_map_add_one,
      div_eq_one_iff_eq hd.ne']
    ring
  · rw [list_sum_map_div, List.sum_reverse, sum_range_map_add_one,
      div_eq_one_iff_eq hd.ne']
    ring
  · rw [List.sum_replicate, nsmul_eq_mul]
    field_simp
  · rw [List.sum_replicate, nsmul_eq_mul]
    field_simp

/-- C7 counterexample: a sequence whose sum differs from `1` by far more than
`1e-10` on the low side still passes the construction-time check, because the
check `alphas.sum() - 1 < 1e-10` is one-sided. -/
theorem sum_check_one_sided_counterexample :
    |([(0 : ℚ)]).sum - 1| > 1 / 10 ^ 10 ∧ sum_assert_passes [(0 : ℚ)] := by
  constructor
  · simp
    norm_num
  · unfold sum_assert_passes
    simp
    norm_num

/-- C7 (amended): the construction-time check of `gen_coefficients` is
one-sided, passing exactly when the raw sum is below `1 + 1e-10`; for every
schedule string (the three supported shapes and the fallback) the check passes,
and for `num_timesteps >= 1` the raw (unscaled) sequence sums to exactly `1`. -/
theorem gen_coefficients_sum_check (T : ℕ) (s : String) :
    (∀ l : List ℚ, sum_assert_passes l ↔ l.sum < 1 + 1 / 10 ^ 10) ∧
    sum_assert_passes (gen_coefficients_raw T s) ∧
    (1 ≤ T → (gen_coefficients_raw T s).sum = 1) := by
  refine ⟨?_, ?_, fun hT => gen_raw_sum T hT s⟩
  · intro l
    unfold sum_assert_passes
    constructor <;> intro h <;> linarith
  · unfold sum_assert_passes
    rcases Nat.eq_zero_or_pos T with h0 | hpos
    · subst h0
      have hlen : (gen_coefficients_raw 0 s).length = 0 := length_gen_raw 0 s
      rw [List.eq_nil_of_length_eq_zero hlen]
      norm_num
    · rw [gen_raw_sum T hpos s]
      norm_num

theorem gen_coefficients_sum_check_witness :
    (1 ≤ 4) ∧ (gen_coefficients_raw 4 "decreased").sum = 1 :=
  ⟨by decide, (gen_coefficients_sum_check 4 "decreased").2.2 (by decide)⟩

/-- C9: any schedule string other than the three recognized ones silently
yields the uniform sequence (constant `1/timesteps`) times `sum_scale`. -/
theorem gen_coefficients_unknown_schedule_uniform (T : ℕ) (ss : ℚ) (s : String)
    (h1 : s ≠ "increased") (h2 : s ≠ "decreased") (h3 : s ≠ "average") :
    gen_coefficients T s ss = List.replicate T ((1 / (T : ℚ)) * ss) := by
  unfold gen_coefficients gen_coefficients_raw
  rw [if_neg h1, if_neg h2, if_neg h3, List.map_replicate]

theorem gen_coefficients_unknown_schedule_uniform_witness :
    ("cosine" ≠ "increased" ∧ "cosine" ≠ "decreased" ∧ "cosine" ≠ "average") ∧
      gen_coefficients 4 "cosine" 2 = List.replicate 4 ((1 / (4 : ℚ)) * 2) :=
  ⟨⟨by decide, by decide, by decide⟩,
    gen_coefficients_unknown_schedule_uniform 4 2 "cosine" (by decide) (by decide) (by decide)⟩

/-! ### C4: the residual target of `p_losses` -/

/-- The quantities `Diffusion.p_losses` (lines 937-983) computes before invoking
the denoiser.  A conditional batch (`imgs` a list, `x_start = imgs[0]`,
`x_input = imgs[1]`) is `Sum.inl (gt, input)`; an unconditional batch (`imgs` a
bare tensor) is `Sum.inr imgs`, with `x_input = 0`.  The regression targets are
`target = [x_res, noise]`. -/
structure PLossesSetup where
  x_input : ℝ
  x_start : ℝ
  x_res : ℝ
  x : ℝ
  target_res : ℝ
  target_noise : ℝ

/-- `Diffusion.p_losses` up to the denoiser call: branch on the batch kind,
form `x_res = x_input - x_start`, corrupt via `q_sample`, and record the two
regression targets. -/
noncomputable def p_losses_setup (T : ℕ) (ss : ℚ) (imgs : (ℝ × ℝ) ⊕ ℝ) (t : ℕ)
    (noise : ℝ) : PLossesSetup :=
  let x_input : ℝ := match imgs with | Sum.inl p => p.2 | Sum.inr _ => 0
  let x_start : ℝ := match imgs with | Sum.inl p => p.1 | Sum.inr g => g
  let x_res := x_input - x_start
  { x_input := x_input, x_start := x_start, x_res := x_res,
    x := q_sample T ss x_start x_res t noise,
    target_res := x_res, target_noise := noise }

/-- C4 counterexample: in unconditional generation mode with clean image `1`,
the residual regression target of `p_losses` is `-1`, not zero. -/
theorem p_losses_uncond_x_res_nonzero :
    (p_losses_setup 5 1 (Sum.inr 1) 0 0).target_res ≠ 0 := by
  simp [p_losses_setup]

/-- C4 (amended): in unconditional generation mode `x_input` is the scalar `0`,
so the residual regression target used by `p_losses` is `0 - x_start =
-x_start`, which is nonzero whenever the clean image is. -/
theorem p_losses_uncond_x_res_eq_neg_x_start (T : ℕ) (ss : ℚ) (x_start : ℝ) (t : ℕ)
    (noise : ℝ) :
    (p_losses_setup T ss (Sum.inr x_start) t noise).target_res = -x_start := by
  simp [p_losses_setup]

/-! ### C6: the reduced-step sampler's time pairs -/

/-- `times = list(reversed(torch.linspace(-1, total_timesteps - 1, steps=sampling_timesteps + 1).int().tolist()))`
(lines 828-830): `S+1` points linearly spaced across `[-1, T-1]`, truncated to
integers, reversed. -/
def ddim_times (T S : ℕ) : List ℤ :=
  ((List.range (S + 1)).map (fun (k : ℕ) => truncInt (-1 + (k : ℚ) * T / S))).reverse

/-- `time_pairs = list(zip(times[:-1], times[1:]))` (line 832); `zip` truncates
to the shorter list, so pairing `times` with its tail is the same list. -/
def ddim_time_pairs (T S : ℕ) : List (ℤ × ℤ) :=
  (ddim_times T S).zip ((ddim_times T S).tail)

lemma truncInt_of_nonneg {q : ℚ} (h : 0 ≤ q) : truncInt q = Int.floor q := by
  unfold truncInt
  rw [if_neg (not_lt.mpr h)]

lemma truncInt_neg_one : truncInt (-1) = -1 := by
  unfold truncInt
  rw [if_pos (by norm_num)]
  norm_num

lemma ddim_g_strict_mono (T S : ℕ) (hS : 1 ≤ S) (hST : S ≤ T) (m : ℕ) (hm : m < S) :
    truncInt (-1 + (m : ℚ) * T / S) < truncInt (-1 + ((m + 1 : ℕ) : ℚ) * T / S) := by
  have hSQ : (0 : ℚ) < S := by exact_mod_cast hS
  have hTS : (1 : ℚ) ≤ (T : ℚ) / S := by
    rw [le_div_iff hSQ, one_mul]
    exact_mod_cast hST
  have hgap : -1 + ((m + 1 : ℕ) : ℚ) * T / S = (-1 + (m : ℚ) * T / S) + (T : ℚ) / S := by
    push_cast
    ring
  rcases Nat.eq_zero_or_pos m with hm0 | hm1
  · subst hm0
    have h0 : -1 + ((0 : ℕ) : ℚ) * T / S = -1 := by
      push_cast
      ring
    have h1 : (0 : ℚ) ≤ -1 + ((0 + 1 : ℕ) : ℚ) * T / S := by
      push_cast
      linarith
    rw [h0, truncInt_neg_one, truncInt_of_nonneg h1]
    have : (0 : ℤ) ≤ Int.floor (-1 + ((0 + 1 : ℕ) : ℚ) * T / S) := by
      rw [Int.le_floor]
      exact_mod_cast h1
    omega
  · have hmQ : (1 : ℚ) ≤ (m : ℚ) := by exact_mod_cast hm1
    have hq0 : (0 : ℚ) ≤ -1 + (m : ℚ) * T / S := by
      have : (T : ℚ) / S ≤ (m : ℚ) * T / S := by
        rw [mul_div_assoc]
        nlinarith
      linarith
    have hq1 : (0 : ℚ) ≤ -1 + ((m + 1 : ℕ) : ℚ) * T / S := by
      rw [hgap]
      linarith
    rw [truncInt_of_nonneg hq0, truncInt_of_nonneg hq1]
    have hle : (-1 + (m : ℚ) * T / S) + 1 ≤ -1 + ((m + 1 : ℕ) : ℚ) * T / S := by
      rw [hgap]
      linarith
    calc Int.floor (-1 + (m : ℚ) * T / S)
        < Int.floor (-1 + (m : ℚ) * T / S) + 1 := by omega
      _ = Int.floor ((-1 + (m : ℚ) * T / S) + 1) := (Int.floor_add_one _).symm
      _ ≤ Int.floor (-1 + ((m + 1 : ℕ) : ℚ) * T / S) := Int.floor_le_floor hle

lemma ddim_times_chain (T S : ℕ) (hS : 1 ≤ S) (hST : S ≤ T) :
    List.Chain' (fun a b => b < a) (ddim_times T S) := by
  unfold ddim_times
  rw [List.chain'_reverse, List.chain'_map, List.chain'_range_succ]
  intro m hm
  exact ddim_g_strict_mono T S hS hST m hm

lemma ddim_times_length (T S : ℕ) : (ddim_times T S).length = S + 1 := by
  simp [ddim_times]

lemma ddim_times_head (T S : ℕ) (hS : 1 ≤ S) (hST : S ≤ T) :
    (ddim_times T S).head? = some ((T : ℤ) - 1) := by
  have hT : 1 ≤ T := le_trans hS hST
  have hSQ : (0 : ℚ) < S := by exact_mod_cast hS
  unfold ddim_times
  rw [List.head?_reverse, List.range_succ, List.map_append]
  simp only [List.map_cons, List.map_nil]
  rw [List.getLast?_concat]
  have hST2 : (S : ℚ) * T / S = T := by
    field_simp
  have hq : -1 + (S : ℚ) * T / S = (((T : ℤ) - 1 : ℤ) : ℚ) := by
    rw [hST2]
    push_cast
    ring
  have hnn : (0 : ℚ) ≤ (((T : ℤ) - 1 : ℤ) : ℚ) := by
    have : (0 : ℤ) ≤ (T : ℤ) - 1 := by omega
    exact_mod_cast this
  rw [hq, truncInt_of_nonneg hnn, Int.floor_intCast]

lemma ddim_times_last (T S : ℕ) : (ddim_times T S).getLast? = some (-1) := by
  unfold ddim_times
  rw [List.getLast?_reverse, List.range_succ_eq_map, List.map_cons, List.head?_cons]
  have h0 : -1 + ((0 : ℕ) : ℚ) * T / S = -1 := by
    push_cast
    ring
  rw [h0, truncInt_neg_one]

lemma chain'_zip_tail {α : Type} {R : α → α → Prop} :
    ∀ l : List α, List.Chain' R l → ∀ p ∈ l.zip l.tail, R p.1 p.2 := by
  intro l
  induction l with
  | nil =>
    intro _ p hp
    simp at hp
  | cons a t ih =>
    intro hc p hp
    cases t with
    | nil => simp at hp
    | cons b u =>
      rw [List.chain'_cons] at hc
      rw [show (a :: b :: u).tail = b :: u from rfl, List.zip_cons_cons] at hp
      rcases List.mem_cons.mp hp with hp1 | hp2
      · subst hp1
        exact hc.1
      · exact ih hc.2 p hp2

lemma zip_tail_getLast {α : Type} :
    ∀ l : List α, 2 ≤ l.length →
      ((l.zip l.tail).getLast?).map Prod.snd = l.getLast? := by
  intro l
  induction l with
  | nil => intro h; simp at h
  | cons a t ih =>
    intro h
    cases t with
    | nil => simp at h
    | cons b u =>
      cases u with
      | nil => rfl
      | cons c v =>
        have hz : (a :: b :: c :: v).zip (a :: b :: c :: v).tail =
            (a, b) :: ((b :: c :: v).zip (b :: c :: v).tail) := rfl
        have hz2 : (b :: c :: v).zip (b :: c :: v).tail =
            (b, c) :: ((c :: v).zip (c :: v).tail) := rfl
        rw [hz, hz2, List.getLast?_cons_cons, ← hz2]
        rw [ih (by simp)]
        simp [List.getLast?_cons_cons]

/-- C6: for `1 <= S <= T`, the reduced-step sampler's time pairs strictly
decrease, the first pair starts at `time = T - 1`, and the final pair ends at
`time_next = -1`. -/
theorem ddim_time_pairs_strictly_decreasing (T S : ℕ) (hS : 1 ≤ S) (hST : S ≤ T) :
    (∀ p ∈ ddim_time_pairs T S, p.2 < p.1) ∧
    (ddim_time_pairs T S).head?.map Prod.fst = some ((T : ℤ) - 1) ∧
    ((ddim_time_pairs T S).getLast?).map Prod.snd = some (-1) := by
  have hlen : 2 ≤ (ddim_times T S).length := by
    rw [ddim_times_length]
    omega
  refine ⟨?_, ?_, ?_⟩
  · exact chain'_zip_tail _ (ddim_times_chain T S hS hST)
  · obtain ⟨a, l1, h1⟩ := List.exists_cons_of_ne_nil
      (List.ne_nil_of_length_pos (by omega : 0 < (ddim_times T S).length))
    obtain ⟨b, l2, h2⟩ := List.exists_cons_of_ne_nil
      (List.ne_nil_of_length_pos (by rw [h1] at hlen; simp at hlen; omega : 0 < l1.length))
    have ha : a = (T : ℤ) - 1 := by
      have := ddim_times_head T S hS hST
      rw [h1, List.head?_cons] at this
      exact Option.some.inj this
    unfold ddim_time_pairs
    rw [h1, h2, show ((a :: b :: l2).tail) = b :: l2 from rfl, List.zip_cons_cons,
      List.head?_cons]
    simp [ha]
  · unfold ddim_time_pairs
    rw [zip_tail_getLast _ hlen]
    exact ddim_times_last T S

theorem ddim_time_pairs_strictly_decreasing_witness :
    (1 ≤ 3 ∧ 3 ≤ 5) ∧
      (ddim_time_pairs 5 3).head?.map Prod.fst = some ((5 : ℤ) - 1) :=
  ⟨⟨by decide, by decide⟩, (ddim_time_pairs_strictly_decreasing 5 3 (by decide) (by decide)).2.1⟩

/-! ### C10: the posterior mean as an affine combination -/

lemma list_sum_map_mul (l : List ℚ) (c : ℚ) :
    (l.map (fun (a : ℚ) => a * c)).sum = l.sum * c := by
  induction l with
  | nil => simp
  | cons a t ih => simp [ih, add_mul]

lemma betas2_total_sum (T : ℕ) (ss : ℚ) (hT : 1 ≤ T) : (betas2_list T ss).sum = ss := by
  unfold betas2_list gen_coefficients
  rw [list_sum_map_mul, gen_raw_sum T hT, one_mul]

lemma idx_dropLast (l : List ℚ) (n : ℕ) (h : n < l.length - 1) :
    idx l.dropLast n = idx l n := by
  have h1 : n < l.dropLast.length := by
    rw [List.length_dropLast]
    exact h
  have h2 : n < l.length := by omega
  rw [idx_eq_getElem _ _ h1, idx_eq_getElem _ _ h2]
  exact List.getElem_dropLast l n h1

lemma idx_betas2_cumsum_prev_succ (T : ℕ) (ss : ℚ) (n : ℕ) (h : n + 1 < T) :
    idx (betas2_cumsum_prev_list T ss) (n + 1) = idx (betas2_cumsum_list T ss) n := by
  unfold betas2_cumsum_prev_list
  unfold idx
  rw [List.getD_cons_succ]
  exact idx_dropLast _ n (by rw [length_betas2_cumsum]; omega)

lemma betas2_mem_pos (T : ℕ) (ss : ℚ) (hss : 0 < ss) (hT : 1 ≤ T) :
    ∀ x ∈ betas2_list T ss, 0 < x := by
  intro x hx
  unfold betas2_list gen_coefficients at hx
  rw [List.mem_map] at hx
  obtain ⟨a, ha, rfl⟩ := hx
  unfold gen_coefficients_raw at ha
  rw [if_pos rfl, List.mem_map] at ha
  obtain ⟨i, _, rfl⟩ := ha
  have hTQ : (0 : ℚ) < T := by exact_mod_cast hT
  have hd : (0 : ℚ) < (1 / 2) * T * (T + 1) := by nlinarith
  exact mul_pos (div_pos (by positivity) hd) hss

lemma psum_pos (T : ℕ) (ss : ℚ) (hss : 0 < ss) (k : ℕ) (hk : k < T) :
    0 < ((betas2_list T ss).take (k + 1)).sum := by
  have hT : 1 ≤ T := by omega
  refine List.sum_pos _ (fun x hx => betas2_mem_pos T ss hss hT x (List.take_subset _ _ hx)) ?_
  refine List.ne_nil_of_length_pos ?_
  rw [List.length_take, length_betas2]
  omega

lemma psum_le_scale (T : ℕ) (ss : ℚ) (hss : 0 ≤ ss) (k : ℕ) :
    ((betas2_list T ss).take (k + 1)).sum ≤ ss := by
  rcases Nat.eq_zero_or_pos T with h0 | hT
  · subst h0
    have : betas2_list 0 ss = [] :=
      List.eq_nil_of_length_eq_zero (length_betas2 0 ss)
    rw [this]
    simpa using hss
  · rcases le_or_lt (k + 1) (betas2_list T ss).length with hcase | hcase
    · calc ((betas2_list T ss).take (k + 1)).sum
          ≤ ((betas2_list T ss).take (betas2_list T ss).length).sum :=
            take_sum_mono _ (betas2_mem_nonneg T ss hss) (by omega)
        _ = ss := by rw [List.take_length, betas2_total_sum T ss hT]
    · rw [List.take_of_length_le (by omega), betas2_total_sum T ss hT]

lemma idx_b2c_eq_psum (T : ℕ) (ss : ℚ) (hss0 : 0 < ss) (hss1 : ss ≤ 1) (k : ℕ)
    (hk : k < T) :
    idx (betas2_cumsum_list T ss) k = ((betas2_list T ss).take (k + 1)).sum := by
  rw [idx_betas2_cumsum T ss k hk]
  refine clip01_of_mem ?_ ?_
  · exact (psum_pos T ss hss0 k hk).le
  · exact le_trans (psum_le_scale T ss hss0.le k) hss1

lemma take_succ_sum (l : List ℚ) (n : ℕ) (h : n < l.length) :
    (l.take (n + 1)).sum = (l.take n).sum + idx l n := by
  rw [List.take_succ, List.sum_append, List.getElem?_eq_getElem h]
  rw [idx_eq_getElem l n h]
  simp

lemma idx_coef1_succ (T : ℕ) (ss : ℚ) (n : ℕ) (h : n + 1 < T) :
    idx (posterior_mean_coef1_list T ss) (n + 1) =
      idx (betas2_cumsum_prev_list T ss) (n + 1) / idx (betas2_cumsum_list T ss) (n + 1) := by
  unfold posterior_mean_coef1_list
  rw [idx_set_ne _ _ _ _ (by omega : (0 : ℕ) ≠ n + 1)]
  exact idx_range_map _ _ _ h

lemma idx_coef3_succ (T : ℕ) (ss : ℚ) (n : ℕ) (h : n + 1 < T) :
    idx (posterior_mean_coef3_list T ss) (n + 1) =
      idx (betas2_list T ss) (n + 1) / idx (betas2_cumsum_list T ss) (n + 1) := by
  unfold posterior_mean_coef3_list
  rw [idx_set_ne _ _ _ _ (by omega : (0 : ℕ) ≠ n + 1)]
  exact idx_range_map _ _ _ h

/-- C10 counterexample: the claim's precondition `sum_scale <= 1` alone does
not suffice.  At `sum_scale = -1` (accepted by the constructor, and `<= 1`),
`T = 2`, `t = 1`, the clip on `betas2_cumsum` is active and
`posterior_mean_coef1[1] + posterior_mean_coef3[1]` is `0`, not `1`. -/
theorem posterior_coef_sum_breaks_for_nonpositive_scale :
    ((-1 : ℚ) ≤ 1) ∧ (1 : ℕ) < 2 ∧
      idx (posterior_mean_coef1_list 2 (-1)) 1 + idx (posterior_mean_coef3_list 2 (-1)) 1 ≠ 1 := by
  refine ⟨by norm_num, by norm_num, ?_⟩
  have hb0 : idx (betas2_list 2 (-1)) 0 = -(1 / 3 : ℚ) := by
    rw [idx_betas2 2 (-1) 0 (by norm_num)]
    norm_num
  have hb1 : idx (betas2_list 2 (-1)) 1 = -(2 / 3 : ℚ) := by
    rw [idx_betas2 2 (-1) 1 (by norm_num)]
    norm_num
  have hp1 : ((betas2_list 2 (-1)).take 1).sum = -(1 / 3 : ℚ) := by
    rw [take_succ_sum _ 0 (by rw [length_betas2]; norm_num)]
    simp [hb0]
  have hp2 : ((betas2_list 2 (-1)).take 2).sum = -1 := by
    rw [take_succ_sum _ 1 (by rw [length_betas2]; norm_num), hp1, hb1]
    norm_num
  have hc0 : idx (betas2_cumsum_list 2 (-1)) 0 = 0 := by
    rw [idx_betas2_cumsum 2 (-1) 0 (by norm_num), hp1, clip01_of_nonpos (by norm_num)]
  have hc1 : idx (betas2_cumsum_list 2 (-1)) 1 = 0 := by
    rw [idx_betas2_cumsum 2 (-1) 1 (by norm_num), hp2, clip01_of_nonpos (by norm_num)]
  rw [idx_coef1_succ 2 (-1) 0 (by norm_num), idx_coef3_succ 2 (-1) 0 (by norm_num),
    idx_betas2_cumsum_prev_succ 2 (-1) 0 (by norm_num), hc0, hc1, hb1]
  norm_num

/-- C10 (amended): under `0 < sum_scale <= 1` (so the clip on `betas2_cumsum`
is inactive and no division by zero occurs), every timestep satisfies
`posterior_mean_coef1[t] + posterior_mean_coef3[t] = 1`, including the forced
boundary `t = 0`. -/
theorem posterior_mean_coef1_add_coef3 (T : ℕ) (ss : ℚ) (hT : 1 ≤ T)
    (hss0 : 0 < ss) (hss1 : ss ≤ 1) (t : ℕ) (htT : t < T) :
    idx (posterior_mean_coef1_list T ss) t + idx (posterior_mean_coef3_list T ss) t = 1 := by
  cases t with
  | zero =>
    rw [posterior_mean_coef1_zero T ss hT, posterior_mean_coef3_zero T ss hT]
    norm_num
  | succ n =>
    rw [idx_coef1_succ T ss n htT, idx_coef3_succ T ss n htT,
      idx_betas2_cumsum_prev_succ T ss n htT]
    rw [idx_b2c_eq_psum T ss hss0 hss1 n (by omega),
      idx_b2c_eq_psum T ss hss0 hss1 (n + 1) htT]
    rw [take_succ_sum (betas2_list T ss) (n + 1) (by rw [length_betas2]; omega)]
    rw [div_add_div_same]
    have hpos := psum_pos T ss hss0 (n + 1) htT
    rw [take_succ_sum (betas2_list T ss) (n + 1) (by rw [length_betas2]; omega)] at hpos
    exact div_self hpos.ne'

theorem posterior_mean_coef1_add_coef3_witness :
    (1 ≤ 3 ∧ (0 : ℚ) < 1 / 100 ∧ (1 : ℚ) / 100 ≤ 1 ∧ 1 < 3) ∧
      idx (posterior_mean_coef1_list 3 (1 / 100)) 1 +
        idx (posterior_mean_coef3_list 3 (1 / 100)) 1 = 1 :=
  ⟨⟨by decide, by norm_num, by norm_num, by decide⟩,
    posterior_mean_coef1_add_coef3 3 (1 / 100) (by decide) (by norm_num) (by norm_num) 1 (by decide)⟩

/-! ### The reduced-step sampler (`ddim_sample`): C5 and C8 -/

/-- `torch.clamp(x, min=-1., max=1.)` as applied by `model_predictions`
(lines 738-739). -/
noncomputable def clampUnit (x : ℝ) : ℝ := min (max x (-1)) 1

/-- The named tuple returned by `Diffusion.model_predictions`. -/
structure ModelResPrediction where
  pred_res : ℝ
  pred_noise : ℝ
  pred_x_start : ℝ

/-- `Diffusion.model_predictions` (lines 729-750), with `clip_denoised=True`
(the default used by both samplers): the denoiser (an abstract function of the
current sample, the conditioning input, the timestep and the optional
self-conditioning channel) returns `(pred_res, pred_noise)`; `pred_res` is
clamped, `x_start` is recovered via `predict_start_from_res_noise` and clamped,
`pred_noise` is never clamped. -/
noncomputable def model_predictions (T : ℕ) (ss : ℚ)
    (model : ℝ → ℝ → ℕ → Option ℝ → ℝ × ℝ) (x_input x : ℝ) (t : ℕ)
    (x_self_cond : Option ℝ) : ModelResPrediction :=
  let out := model x x_input t x_self_cond
  let pred_res := clampUnit out.1
  let pred_noise := out.2
  let x_start := clampUnit (predict_start_from_res_noise T ss x t pred_res pred_noise)
  ⟨pred_res, pred_noise, x_start⟩

/-- `(img + 1) * 0.5` (line 86). -/
noncomputable def unnormalize_to_zero_to_one (x : ℝ) : ℝ := (x + 1) * (1 / 2)

/-- `img * 2 - 1` (line 79). -/
noncomputable def normalize_to_neg_one_to_one (x : ℝ) : ℝ := x * 2 - 1

/-- The loop body of `Diffusion.ddim_sample` (lines 847-890), iterating over
`time_pairs` while threading the sample state `img`, the step counter `i`
(consuming the random stream `stream` one draw per stochastic step), and the
previous predicted start-image for optional self-conditioning.  When
`time_next < 0` the state becomes the predicted start-image; otherwise the
step-local update with `sigma2 = eta * betas2 * betas2_cumsum_next /
betas2_cumsum` is applied, with the noise term forced to exactly `0` when
`eta == 0`. -/
noncomputable def ddim_steps (T : ℕ) (ss : ℚ) (eta : ℝ) (selfCond : Bool)
    (model : ℝ → ℝ → ℕ → Option ℝ → ℝ × ℝ) (x_input : ℝ) (stream : ℕ → ℝ) :
    List (ℤ × ℤ) → ℕ → ℝ → Option ℝ → ℝ
  | [], _, img, _ => img
  | (time, time_next) :: rest, i, img, x_start_prev =>
    let self_cond := if selfCond then x_start_prev else none
    let preds := model_predictions T ss model x_input img time.toNat self_cond
    if time_next < 0 then
      ddim_steps T ss eta selfCond model x_input stream rest (i + 1) preds.pred_x_start
        (some preds.pred_x_start)
    else
      let alpha := alphas_cumsum_at T time.toNat - alphas_cumsum_at T time_next.toNat
      let betas2 := betas2_cumsum_at T ss time.toNat - betas2_cumsum_at T ss time_next.toNat
      let sigma2 := eta * (betas2 * betas2_cumsum_at T ss time_next.toNat /
        betas2_cumsum_at T ss time.toNat)
      let noise := if eta = 0 then 0 else stream i
      let img2 := img - alpha * preds.pred_res -
        (betas_cumsum_at T ss time.toNat -
          Real.sqrt (betas2_cumsum_at T ss time_next.toNat - sigma2)) * preds.pred_noise +
        Real.sqrt sigma2 * noise
      ddim_steps T ss eta selfCond model x_input stream rest (i + 1) img2
        (some preds.pred_x_start)

/-- `Diffusion.ddim_sample` (lines 816-903) in conditional mode with
`last=True`: the state is initialized as `img = x_input +
math.sqrt(self.sum_scale) * randn(...)` (lines 834-837), the loop runs over
`ddim_time_pairs`, and the return value is
`unnormalize_to_zero_to_one([input_add_noise, img])` (lines 892-897). -/
noncomputable def ddim_sample (T S : ℕ) (ss : ℚ) (eta : ℝ) (selfCond : Bool)
    (model : ℝ → ℝ → ℕ → Option ℝ → ℝ × ℝ) (x_input : ℝ) (init_noise : ℝ)
    (stream : ℕ → ℝ) : List ℝ :=
  let input_add_noise := x_input + Real.sqrt ((ss : ℚ) : ℝ) * init_noise
  let img := ddim_steps T ss eta selfCond model x_input stream (ddim_time_pairs T S) 0
    input_add_noise none
  [unnormalize_to_zero_to_one input_add_noise, unnormalize_to_zero_to_one img]

/-- `Diffusion.sample` (lines 905-918) in conditional mode with
`sampling_timesteps < num_timesteps`: the input image is normalized to
`[-1, 1]` and dispatched to `ddim_sample` (`is_ddim_sampling` holds). -/
noncomputable def sample_reduced (T S : ℕ) (ss : ℚ) (eta : ℝ) (selfCond : Bool)
    (model : ℝ → ℝ → ℕ → Option ℝ → ℝ × ℝ) (x_input_raw init_noise : ℝ)
    (stream : ℕ → ℝ) : List ℝ :=
  ddim_sample T S ss eta selfCond model (normalize_to_neg_one_to_one x_input_raw)
    init_noise stream

lemma clampUnit_mem (x : ℝ) : -1 ≤ clampUnit x ∧ clampUnit x ≤ 1 := by
  unfold clampUnit
  exact ⟨le_min (le_max_right x (-1)) (by norm_num), min_le_right _ _⟩

lemma ddim_steps_final_clamped (T : ℕ) (ss : ℚ) (eta : ℝ) (selfCond : Bool)
    (model : ℝ → ℝ → ℕ → Option ℝ → ℝ × ℝ) (x_input : ℝ) (stream : ℕ → ℝ) :
    ∀ pairs : List (ℤ × ℤ), pairs ≠ [] →
      (∀ p, pairs.getLast? = some p → p.2 < 0) →
      ∀ (i : ℕ) (img : ℝ) (xso : Option ℝ),
        -1 ≤ ddim_steps T ss eta selfCond model x_input stream pairs i img xso ∧
          ddim_steps T ss eta selfCond model x_input stream pairs i img xso ≤ 1 := by
  intro pairs
  induction pairs with
  | nil => intro h; exact absurd rfl h
  | cons p rest ih =>
    intro _ hlast i img xso
    obtain ⟨time, tn⟩ := p
    cases rest with
    | nil =>
      have hp : tn < 0 := hlast (time, tn) rfl
      simp only [ddim_steps, if_pos hp, model_predictions]
      exact clampUnit_mem _
    | cons q rest2 =>
      have hlast2 : ∀ p, (q :: rest2).getLast? = some p → p.2 < 0 := by
        intro p hp
        apply hlast
        rw [List.getLast?_cons_cons]
        exact hp
      by_cases h : tn < 0
      · simp only [ddim_steps, if_pos h]
        exact ih (by simp) hlast2 _ _ _
      · simp only [ddim_steps, if_neg h]
        exact ih (by simp) hlast2 _ _ _

lemma ddim_time_pairs_ne_nil (T S : ℕ) (hS : 1 ≤ S) : ddim_time_pairs T S ≠ [] := by
  unfold ddim_time_pairs
  refine List.ne_nil_of_length_pos ?_
  rw [List.length_zip, List.length_tail, ddim_times_length]
  omega

lemma ddim_time_pairs_last_neg (T S : ℕ) (hS : 1 ≤ S) :
    ∀ p : ℤ × ℤ, (ddim_time_pairs T S).getLast? = some p → p.2 < 0 := by
  intro p hp
  have h2 : 2 ≤ (ddim_times T S).length := by
    rw [ddim_times_length]
    omega
  have hmap := zip_tail_getLast (ddim_times T S) h2
  unfold ddim_time_pairs at hp
  rw [hp, ddim_times_last T S] at hmap
  have : p.2 = -1 := Option.some.inj hmap
  omega

/-- C5 counterexample: conditional reduced-step `sample` with the default
`sum_scale = 0.01` and `eta = 0` does not return only values in `[0, 1]`.  The
returned list is `[unnormalized noised input, unnormalized final image]`, and
with raw input pixel `1` and initial Gaussian draw `20` the first returned
value is `2`. -/
theorem sample_reduced_output_escapes_unit_interval :
    ¬ (∀ y ∈ sample_reduced 2 1 (effective_sum_scale true none) (effective_eta true 0) false
        (fun _ _ _ _ => (0, 0)) 1 20 (fun _ => 0), 0 ≤ y ∧ y ≤ 1) := by
  intro h
  have hmem : unnormalize_to_zero_to_one
      (normalize_to_neg_one_to_one 1 +
        Real.sqrt ((effective_sum_scale true none : ℚ) : ℝ) * 20) ∈
      sample_reduced 2 1 (effective_sum_scale true none) (effective_eta true 0) false
        (fun _ _ _ _ => (0, 0)) 1 20 (fun _ => 0) := by
    unfold sample_reduced ddim_sample
    exact List.mem_cons_self _ _
  have hsqrt : Real.sqrt ((effective_sum_scale true none : ℚ) : ℝ) = 1 / 10 := by
    have h1 : ((effective_sum_scale true none : ℚ) : ℝ) = (1 / 10 : ℝ) ^ 2 := by
      norm_num [effective_sum_scale]
    rw [h1, Real.sqrt_sq (by norm_num)]
  have hval : unnormalize_to_zero_to_one
      (normalize_to_neg_one_to_one 1 +
        Real.sqrt ((effective_sum_scale true none : ℚ) : ℝ) * 20) = 2 := by
    rw [hsqrt]
    unfold unnormalize_to_zero_to_one normalize_to_neg_one_to_one
    norm_num
  have hle := (h _ hmem).2
  rw [hval] at hle
  linarith

/-- C5 (amended): in conditional reduced-step mode the returned list is
`[unnormalized noised input, unnormalized final image]`; the FINAL image lies
in `[0, 1]` after unnormalization (the last reverse step outputs the clamped
predicted start-image), while the prepended noise-perturbed input is not so
bounded. -/
theorem sample_reduced_final_image_in_unit_interval (T S : ℕ) (ss : ℚ) (eta : ℝ)
    (selfCond : Bool) (model : ℝ → ℝ → ℕ → Option ℝ → ℝ × ℝ)
    (x_input_raw init_noise : ℝ) (stream : ℕ → ℝ) (hS : 1 ≤ S) (hST : S < T) :
    ∃ a b : ℝ,
      sample_reduced T S ss eta selfCond model x_input_raw init_noise stream = [a, b] ∧
        0 ≤ b ∧ b ≤ 1 := by
  have hbound := ddim_steps_final_clamped T ss eta selfCond model
    (normalize_to_neg_one_to_one x_input_raw) stream (ddim_time_pairs T S)
    (ddim_time_pairs_ne_nil T S hS) (ddim_time_pairs_last_neg T S hS) 0
    (normalize_to_neg_one_to_one x_input_raw + Real.sqrt ((ss : ℚ) : ℝ) * init_noise) none
  refine ⟨_, _, rfl, ?_, ?_⟩
  · unfold unnormalize_to_zero_to_one
    linarith [hbound.1]
  · unfold unnormalize_to_zero_to_one
    linarith [hbound.2]

theorem sample_reduced_final_image_in_unit_interval_witness :
    (1 ≤ 1 ∧ 1 < 2) ∧
      ∃ a b : ℝ,
        sample_reduced 2 1 (1 / 100) 0 false (fun _ _ _ _ => (0, 0)) 1 20 (fun _ => 0) =
          [a, b] ∧ 0 ≤ b ∧ b ≤ 1 :=
  ⟨⟨by decide, by decide⟩,
    sample_reduced_final_image_in_unit_interval 2 1 (1 / 100) 0 false
      (fun _ _ _ _ => (0, 0)) 1 20 (fun _ => 0) (by decide) (by decide)⟩

lemma ddim_steps_eta_zero_stream_irrelevant (T : ℕ) (ss : ℚ) (selfCond : Bool)
    (model : ℝ → ℝ → ℕ → Option ℝ → ℝ × ℝ) (x_input : ℝ) (stream1 stream2 : ℕ → ℝ) :
    ∀ (pairs : List (ℤ × ℤ)) (i : ℕ) (img : ℝ) (xso : Option ℝ),
      ddim_steps T ss 0 selfCond model x_input stream1 pairs i img xso =
        ddim_steps T ss 0 selfCond model x_input stream2 pairs i img xso := by
  intro pairs
  induction pairs with
  | nil =>
    intro i img xso
    rfl
  | cons p rest ih =>
    intro i img xso
    obtain ⟨time, tn⟩ := p
    by_cases h : tn < 0
    · simp only [ddim_steps, if_pos h]
      exact ih _ _ _
    · simp only [ddim_steps, if_neg h, eq_self_iff_true, if_true]
      exact ih _ _ _

/-- C8: in conditional mode `ddim_sampling_eta` is forced to `0`, and then the
reduced-step sampler never consumes its per-step random stream (the per-step
noise is forced to exactly zero), so two runs of `sample` on the same input
with the same initial noise draw are bit-identical. -/
theorem conditional_reduced_sampling_deterministic (T S : ℕ) (ssOpt : Option ℚ)
    (e : ℝ) (selfCond : Bool) (model : ℝ → ℝ → ℕ → Option ℝ → ℝ × ℝ)
    (x_input_raw init_noise : ℝ) (stream1 stream2 : ℕ → ℝ) :
    sample_reduced T S (effective_sum_scale true ssOpt) (effective_eta true e) selfCond
        model x_input_raw init_noise stream1 =
      sample_reduced T S (effective_sum_scale true ssOpt) (effective_eta true e) selfCond
        model x_input_raw init_noise stream2 := by
  have heta : effective_eta true e = 0 := rfl
  unfold sample_reduced ddim_sample
  rw [heta]
  simp only [ddim_steps_eta_zero_stream_irrelevant T (effective_sum_scale true ssOpt)
    selfCond model (normalize_to_neg_one_to_one x_input_raw) stream1 stream2]
